import Mathlib

/-!
# Formal model of `ml_cloud_tools/s3.py`

A shallow embedding of the S3 helper functions of the `ml-cloud-tools`
repository (`src/ml_cloud_tools/s3.py`).

Modelling conventions:

* Local paths and S3 keys are lists of path segments (the result of
  splitting the POSIX string on `/`).  `posixChars` recovers the raw
  character sequence of the corresponding string, which is what the code
  inspects in its two string-level operations: the `Prefix=` filter of
  `Bucket.objects.filter` and the `obj.key[-1] == "/"` check.
* The local file system is a pair of a directory list and an association
  list from file paths to file contents (a real file system keeps these
  disjoint; `glob("**/*")` is modelled accordingly).  The S3 bucket is an
  association list from keys to object bodies.
* `boto3` network calls become pure state transformations: `download_file`
  reads the association list (a missing key is a provider error),
  `upload_file` prepends an entry (later entries shadow earlier ones, as a
  later `PUT` overwrites), `list_objects_v2` responses are given as an
  explicit finite sequence of pages.
* Python `raise` becomes `Except.error`.  The code raises `ValueError`
  with different messages for an unresolvable bucket name, for a
  non-directory local root, and from `Path.relative_to`; these are kept
  apart as distinct constructors.  `KeyError` from a missing
  `NextContinuationToken` dictionary entry is `keyError`.
* `pathNorm` models the normalisation performed by the `Path` constructor
  (dropping empty and `.` components); absolute-path roots are out of the
  modelled scope.
-/

namespace MlCloudTools

/-- Errors raised by the Python code, separated by their message/type.
`configurationError` and `invalidArgument` and `valueError` are all
`ValueError` in Python, with distinct messages; `keyError` is a `KeyError`;
`providerError` stands for any exception raised by the boto3 client. -/
inductive S3Error where
  | configurationError : S3Error
  | invalidArgument : S3Error
  | valueError : S3Error
  | keyError : S3Error
  | providerError : S3Error
deriving DecidableEq

/-- The character sequence of the POSIX string of a segment list, i.e. of
the segments interleaved with `/` (the data of `"/".join(segments)`). -/
def posixChars : List String → List Char
  | [] => []
  | [s] => s.data
  | s :: rest => s.data ++ '/' :: posixChars rest

/-- String-prefix test on the raw POSIX strings: models the `Prefix=`
argument of `Bucket.objects.filter`, which filters keys by *string*
prefix, not by path-segment prefix. -/
def strPrefix (pfx k : List String) : Bool :=
  (posixChars pfx).isPrefixOf (posixChars k)

/-- Models `obj.key[-1] == "/"`: the last character of the raw key string
is a slash. -/
def endsSlash (k : List String) : Bool :=
  (posixChars k).getLastD ' ' == '/'

/-- A well-formed path segment: nonempty, not `.`, and containing no
slash (segments obtained by splitting a path string on `/` never contain
`/`; empty segments encode repeated or trailing slashes). -/
def wfSeg (s : String) : Bool :=
  s != "" && s != "." && !(s.data.contains '/')

/-- All segments well-formed. -/
def wfPath (l : List String) : Bool := l.all wfSeg

/-- Normalisation performed by the Python `Path` constructor: empty and
`.` components are dropped (`Path("a//./x/")` equals `Path("a/x")`). -/
def pathNorm (l : List String) : List String :=
  l.filter (fun s => s != "" && s != ".")

/-- Models `Path(l).name`: the last component of the normalised path,
`""` when there is none. -/
def pathName (l : List String) : String := (pathNorm l).getLastD ""

/-- Association list from paths/keys to contents: the shape of both the
local file table and the bucket. -/
abbrev AList := List (List String × String)

/-- First-match lookup in an association list. -/
def alistGet (l : AList) (k : List String) : Option String :=
  (l.find? (fun e => e.1 == k)).map Prod.snd

/-- The local file system: existing directories and existing files with
their contents. -/
structure LocalFS where
  dirs : List (List String)
  files : AList
deriving DecidableEq

/-- Models `Path(p).is_dir()`. -/
def isDir (fs : LocalFS) (p : List String) : Bool := fs.dirs.contains p

/-- Content of the local file at `p`, if any. -/
def fsGet (fs : LocalFS) (p : List String) : Option String := alistGet fs.files p

/-- Models `Path(p).is_file()`. -/
def isFile (fs : LocalFS) (p : List String) : Bool := (fsGet fs p).isSome

/-- Writing a local file: the new entry shadows any earlier entry for the
same path. -/
def fsPut (fs : LocalFS) (p : List String) (c : String) : LocalFS :=
  { fs with dirs := fs.dirs, files := (p, c) :: fs.files }

/-- Models `local_path.parents[0].mkdir(exist_ok=True, parents=True)`:
all proper prefixes of `p` become directories. -/
def mkdirParents (fs : LocalFS) (p : List String) : LocalFS :=
  { fs with dirs := (List.range p.length).map (fun i => p.take i) ++ fs.dirs }

/-- The bucket: keys (raw segment lists) mapped to object bodies. -/
abbrev S3State := AList

/-- Models `download_file`/`Object.get`: current body of the object. -/
def s3Get (s3 : S3State) (k : List String) : Option String := alistGet s3 k

/-- Models `upload_file`: a later `PUT` shadows the earlier object. -/
def s3Put (s3 : S3State) (k : List String) (c : String) : S3State := (k, c) :: s3

/-- Model of `_get_s3_bucket_name` (the leading underscore of the Python
name is dropped): the explicit parameter if given, otherwise the value of
the `DEFAULT_S3_BUCKET_NAME` environment variable (`envVar`), otherwise a
`ValueError`. -/
def get_s3_bucket_name (param envVar : Option String) : Except S3Error String :=
  match param with
  | some b => .ok b
  | none =>
    match envVar with
    | some b => .ok b
    | none => .error .configurationError

/-- Model of `copy_s3_file_to_file`.  The `envVar` argument stands for the
`DEFAULT_S3_BUCKET_NAME` environment variable consulted by
`_get_s3_bucket_name`; the returned state is the local file system after
the call.  Note the order of the code: the skip check precedes bucket
resolution and any client call. -/
def copy_s3_file_to_file (fs : LocalFS) (s3 : S3State)
    (s3_file_name local_file_name : List String)
    (s3_bucket_name envVar : Option String) (overwrite : Bool) :
    Except S3Error LocalFS :=
  if !overwrite && isFile fs local_file_name then .ok fs
  else
    match get_s3_bucket_name s3_bucket_name envVar with
    | .error e => .error e
    | .ok _ =>
      match s3Get s3 s3_file_name with
      | some c => .ok (fsPut fs local_file_name c)
      | none => .error .providerError

/-- Keys of the bucket matched by `objects.filter(Prefix=s3_dir_name)`:
string-prefix filtering on the raw key. -/
def matchedKeys (s3 : S3State) (s3_dir_name : List String) : List (List String) :=
  (s3.map Prod.fst).filter (fun k => strPrefix s3_dir_name k)

/-- The body of the download loop of `copy_s3_dir_to_dir`, one iteration
per listed object:
keys whose raw string ends in `/` are skipped; `Path(obj.key)` must extend
`Path(s3_dir_name)` segment-wise or `Path.relative_to` raises `ValueError`;
an existing destination is skipped when `overwrite` is false; otherwise
parent directories are created and the object downloaded. -/
def downloadLoop (s3 : S3State) (finalDir pfxNorm : List String) (overwrite : Bool) :
    List (List String) → LocalFS → Except S3Error LocalFS
  | [], fs => .ok fs
  | k :: ks, fs =>
    if endsSlash k then downloadLoop s3 finalDir pfxNorm overwrite ks fs
    else if pfxNorm.isPrefixOf (pathNorm k) then
      if !overwrite && isFile fs (finalDir ++ (pathNorm k).drop pfxNorm.length) then
        downloadLoop s3 finalDir pfxNorm overwrite ks fs
      else
        match s3Get s3 k with
        | some c =>
          downloadLoop s3 finalDir pfxNorm overwrite ks
            (fsPut (mkdirParents fs (finalDir ++ (pathNorm k).drop pfxNorm.length))
              (finalDir ++ (pathNorm k).drop pfxNorm.length) c)
        | none => .error .providerError
    else .error .valueError

/-- Model of `copy_s3_dir_to_dir`.  Returns the final local directory
(`local_dir / Path(s3_dir_name).name`) together with the updated local
file system. -/
def copy_s3_dir_to_dir (fs : LocalFS) (s3 : S3State)
    (s3_dir_name local_dir_name : List String)
    (s3_bucket_name envVar : Option String) (overwrite : Bool) :
    Except S3Error (List String × LocalFS) :=
  let localDir := pathNorm local_dir_name
  if !(isDir fs localDir) then .error .invalidArgument
  else
    match get_s3_bucket_name s3_bucket_name envVar with
    | .error e => .error e
    | .ok _ =>
      let finalDir := localDir ++ [pathName s3_dir_name]
      match downloadLoop s3 finalDir (pathNorm s3_dir_name) overwrite
          (matchedKeys s3 s3_dir_name) fs with
      | .ok fs2 => .ok (finalDir, fs2)
      | .error e => .error e

/-- An entry yielded by `local_dir_path.glob("**/*")`: a directory or a
file (with its content). -/
inductive FSEntry where
  | dir : List String → FSEntry
  | file : List String → String → FSEntry
deriving DecidableEq

/-- Models `local_dir_path.glob("**/*")`: every directory and every file
strictly below `root` (pathlib's glob does not special-case dotfiles).
The `file_path.is_dir()` test of the loop is reflected in the
constructor. -/
def globEntries (fs : LocalFS) (root : List String) : List FSEntry :=
  (fs.dirs.filter (fun p => root.isPrefixOf p && p != root)).map FSEntry.dir
    ++ (fs.files.filter (fun e => root.isPrefixOf e.1 && e.1 != root)).map
        (fun e => FSEntry.file e.1 e.2)

/-- The file entries of an entry list, in order. -/
def filesOf : List FSEntry → AList
  | [] => []
  | FSEntry.dir _ :: es => filesOf es
  | FSEntry.file p c :: es => (p, c) :: filesOf es

/-- The body of the upload loop of `copy_dir_to_s3_dir`: directories are
skipped (`s3 has no directories`), each file is uploaded unconditionally
to `final_s3_dir_path / file_path.relative_to(local_dir_path)` (for glob
results the relative path is the suffix after `rootDir`). -/
def uploadLoop (finalPfx rootDir : List String) : List FSEntry → S3State → S3State
  | [], s3 => s3
  | FSEntry.dir _ :: es, s3 => uploadLoop finalPfx rootDir es s3
  | FSEntry.file p c :: es, s3 =>
      uploadLoop finalPfx rootDir es (s3Put s3 (finalPfx ++ p.drop rootDir.length) c)

/-- The bucket entries created by the upload loop over the files under
`rootDir`, newest first (each upload prepends): the image used to state
what `copy_dir_to_s3_dir` produces. -/
def upImage (fs : LocalFS) (rootDir finalPfx : List String) : S3State :=
  (fs.files.filter (fun pc => rootDir.isPrefixOf pc.1 && pc.1 != rootDir)).reverse.map
    (fun pc => (finalPfx ++ pc.1.drop rootDir.length, pc.2))

/-- Model of `copy_dir_to_s3_dir`.  Returns the final S3 prefix
(`Path(s3_dir_name) / local_dir_path.name`) together with the updated
bucket. -/
def copy_dir_to_s3_dir (fs : LocalFS) (s3 : S3State)
    (local_dir_name s3_dir_name : List String)
    (s3_bucket_name envVar : Option String) :
    Except S3Error (List String × S3State) :=
  let localDir := pathNorm local_dir_name
  if !(isDir fs localDir) then .error .invalidArgument
  else
    match get_s3_bucket_name s3_bucket_name envVar with
    | .error e => .error e
    | .ok _ =>
      let finalPfx := pathNorm s3_dir_name ++ [pathName local_dir_name]
      .ok (finalPfx, uploadLoop finalPfx localDir (globEntries fs localDir) s3)

/-- One `list_objects_v2` response.  `contents` is the list of the `Key`
fields of the `Contents` entries; `nextContinuationToken` is `none` when
the response dictionary has no `NextContinuationToken` entry. -/
structure ListResponse where
  keyCount : Nat
  contents : List String
  isTruncated : Bool
  nextContinuationToken : Option String
deriving DecidableEq

/-- The `while response["IsTruncated"]` loop of `list_s3_files`.  The
provider's successive continuation responses are the finite sequence
`pages`, consumed one per re-query; accessing a missing
`NextContinuationToken` raises `KeyError`; a re-query the provider cannot
answer (no page left) is a provider error. -/
def listLoop : ListResponse → List ListResponse → List String → Except S3Error (List String)
  | r, [], acc =>
    if r.isTruncated then
      match r.nextContinuationToken with
      | none => .error .keyError
      | some _ => .error .providerError
    else .ok acc
  | r, next :: rest, acc =>
    if r.isTruncated then
      match r.nextContinuationToken with
      | none => .error .keyError
      | some _ => listLoop next rest (acc ++ next.contents)
    else .ok acc

/-- `listLoop` with explicit fuel: `none` means the fuel was exhausted
before the loop finished. -/
def listLoopFuel : Nat → ListResponse → List ListResponse → List String →
    Option (Except S3Error (List String))
  | 0, _, _, _ => none
  | _ + 1, r, [], acc =>
    if r.isTruncated then
      match r.nextContinuationToken with
      | none => some (.error .keyError)
      | some _ => some (.error .providerError)
    else some (.ok acc)
  | n + 1, r, next :: rest, acc =>
    if r.isTruncated then
      match r.nextContinuationToken with
      | none => some (.error .keyError)
      | some _ => listLoopFuel n next rest (acc ++ next.contents)
    else some (.ok acc)

/-- A well-formed chain of responses: every response but the last claims
truncation and carries a continuation token, the last one reports no
further truncation. -/
def chainOK : ListResponse → List ListResponse → Bool
  | r, [] => !r.isTruncated
  | r, next :: rest => r.isTruncated && r.nextContinuationToken.isSome && chainOK next rest

/-- Model of `list_s3_files`: bucket resolution, then the initial query
(response `first`), the empty-prefix early return, and the pagination
loop. -/
def list_s3_files (s3_bucket_name envVar : Option String)
    (first : ListResponse) (pages : List ListResponse) :
    Except S3Error (List String) :=
  match get_s3_bucket_name s3_bucket_name envVar with
  | .error e => .error e
  | .ok _ =>
    if first.keyCount == 0 then .ok []
    else listLoop first pages first.contents

/-! ## Basic lemmas about paths and association lists -/

theorem posixChars_append {l₁ l₂ : List String} (h₁ : l₁ ≠ []) (h₂ : l₂ ≠ []) :
    posixChars (l₁ ++ l₂) = posixChars l₁ ++ '/' :: posixChars l₂ := by
  induction l₁ with
  | nil => exact absurd rfl h₁
  | cons s rest ih =>
    cases rest with
    | nil =>
      cases l₂ with
      | nil => exact absurd rfl h₂
      | cons t ts => simp [posixChars]
    | cons s' rest' =>
      have h3 : posixChars ((s' :: rest') ++ l₂) =
          posixChars (s' :: rest') ++ '/' :: posixChars l₂ := ih (by simp)
      show s.data ++ '/' :: posixChars ((s' :: rest') ++ l₂) =
        (s.data ++ '/' :: posixChars (s' :: rest')) ++ '/' :: posixChars l₂
      rw [h3]
      simp

theorem strPrefix_append_self {pfx r : List String} (h₁ : pfx ≠ []) (h₂ : r ≠ []) :
    strPrefix pfx (pfx ++ r) = true := by
  rw [strPrefix, posixChars_append h₁ h₂, List.isPrefixOf_iff_prefix]
  exact List.prefix_append _ _

theorem wfSeg_ne_empty {s : String} (h : wfSeg s = true) : s ≠ "" := by
  rw [wfSeg] at h
  simp only [Bool.and_eq_true, bne_iff_ne, ne_eq] at h
  exact h.1.1

theorem wfSeg_keep {s : String} (h : wfSeg s = true) : (s != "" && s != ".") = true := by
  rw [wfSeg] at h
  simp only [Bool.and_eq_true] at h
  simp [h.1.1, h.1.2]

theorem pathNorm_eq_self {l : List String} (h : wfPath l = true) : pathNorm l = l := by
  rw [pathNorm, List.filter_eq_self]
  intro s hs
  rw [wfPath, List.all_eq_true] at h
  exact wfSeg_keep (h s hs)

theorem wfPath_append {l₁ l₂ : List String} :
    wfPath (l₁ ++ l₂) = (wfPath l₁ && wfPath l₂) := by
  simp [wfPath, List.all_append]

theorem pathName_concat {a : List String} {x : String} (hx : wfSeg x = true) :
    pathName (a ++ [x]) = x := by
  rw [pathName, pathNorm, List.filter_append]
  have : List.filter (fun s => s != "" && s != ".") [x] = [x] := by
    rw [List.filter_cons, if_pos (wfSeg_keep hx)]
    rfl
  rw [this, List.getLastD_concat]

theorem string_data_ne_nil {s : String} (h : s ≠ "") : s.data ≠ [] := by
  intro hd
  apply h
  cases s with
  | mk data =>
    have hd' : data = [] := hd
    subst hd'
    rfl

theorem posixChars_ne_nil {l : List String} (hw : wfPath l = true) (h : l ≠ []) :
    posixChars l ≠ [] := by
  cases l with
  | nil => exact absurd rfl h
  | cons s rest =>
    have hs : wfSeg s = true := by
      rw [wfPath, List.all_eq_true] at hw; exact hw s (by simp)
    have hsd := string_data_ne_nil (wfSeg_ne_empty hs)
    cases rest with
    | nil => simpa [posixChars] using hsd
    | cons s' rest' => simp [posixChars]

theorem getLastD_append_right {A B : List Char} (h : B ≠ []) (d : Char) :
    (A ++ B).getLastD d = B.getLastD d := by
  rw [List.getLastD_eq_getLast?, List.getLastD_eq_getLast?, List.getLast?_append]
  cases hB : B.getLast? with
  | none => exact absurd (List.getLast?_eq_none_iff.mp hB) h
  | some ch => simp

theorem getLastD_irrel {l : List Char} (h : l ≠ []) (d d' : Char) :
    l.getLastD d = l.getLastD d' := by
  rw [List.getLastD_eq_getLast?, List.getLastD_eq_getLast?]
  cases hB : l.getLast? with
  | none => exact absurd (List.getLast?_eq_none_iff.mp hB) h
  | some ch => rfl

theorem endsSlash_eq_false {k : List String} (hw : wfPath k = true) (h : k ≠ []) :
    endsSlash k = false := by
  induction k with
  | nil => exact absurd rfl h
  | cons s rest ih =>
    have hs : wfSeg s = true := by
      rw [wfPath, List.all_eq_true] at hw; exact hw s (by simp)
    have hrest : wfPath rest = true := by
      rw [wfPath, List.all_eq_true] at hw ⊢
      exact fun x hx => hw x (by simp [hx])
    cases rest with
    | nil =>
      show (s.data.getLastD ' ' == '/') = false
      have hs3 : s.data.contains '/' = false := by
        rw [wfSeg] at hs
        simp only [Bool.and_eq_true] at hs
        simpa using hs.2
      rw [List.getLastD_eq_getLast?]
      cases hgl : s.data.getLast? with
      | none => simp
      | some ch =>
        have hmem : ch ∈ s.data := List.mem_of_mem_getLast? hgl
        have hne : ch ≠ '/' := by
          intro he
          have hct : s.data.contains '/' = true :=
            List.contains_iff_exists_mem_beq.mpr ⟨ch, hmem, by simp [he]⟩
          rw [hct] at hs3
          exact absurd hs3 (by simp)
        simp [hne]
    | cons s' rest' =>
      have hne : posixChars (s' :: rest') ≠ [] := posixChars_ne_nil hrest (by simp)
      show ((s.data ++ '/' :: posixChars (s' :: rest')).getLastD ' ' == '/') = false
      rw [getLastD_append_right (by simp) ' ', List.getLastD_cons,
        getLastD_irrel hne '/' ' ']
      exact ih hrest (by simp)

theorem alistGet_cons_self {l : AList} {k : List String} {c : String} :
    alistGet ((k, c) :: l) k = some c := by
  rw [alistGet, List.find?_cons_of_pos _ (by simp)]
  rfl

theorem alistGet_cons_ne {l : AList} {k k' : List String} {c : String} (h : k' ≠ k) :
    alistGet ((k, c) :: l) k' = alistGet l k' := by
  rw [alistGet, List.find?_cons_of_neg _ (by simpa using fun he => h he.symm)]
  rfl

theorem alistGet_append {l₁ l₂ : AList} {k : List String} :
    alistGet (l₁ ++ l₂) k = ((alistGet l₁ k).or (alistGet l₂ k)) := by
  rw [alistGet, List.find?_append, alistGet, alistGet]
  cases List.find? (fun e => e.1 == k) l₁ <;> rfl

theorem alistGet_mem {l : AList} {k : List String} {c : String}
    (h : alistGet l k = some c) : (k, c) ∈ l := by
  rw [alistGet] at h
  cases hf : List.find? (fun e => e.1 == k) l with
  | none => rw [hf] at h; simp at h
  | some e =>
    rw [hf] at h
    cases e with
    | mk k0 c0 =>
      have hp : k0 = k := by simpa using List.find?_some hf
      have hc : c0 = c := by simpa using h
      subst hp
      subst hc
      exact List.mem_of_find?_eq_some hf

theorem alistGet_eq_none {l : AList} {k : List String} :
    alistGet l k = none ↔ k ∉ l.map Prod.fst := by
  rw [alistGet]
  constructor
  · intro h hm
    cases hf : List.find? (fun e => e.1 == k) l with
    | some e => rw [hf] at h; simp at h
    | none =>
      rw [List.find?_eq_none] at hf
      obtain ⟨e, he, hk⟩ := List.mem_map.mp hm
      exact hf e he (by simp [hk])
  · intro hm
    cases hf : List.find? (fun e => e.1 == k) l with
    | none => rfl
    | some e =>
      have hp := List.find?_some hf
      have hmem := List.mem_of_find?_eq_some hf
      exact absurd (List.mem_map.mpr ⟨e, hmem, by simpa using hp⟩) hm

theorem alistGet_isSome_of_mem {l : AList} {k : List String}
    (h : k ∈ l.map Prod.fst) : (alistGet l k).isSome := by
  cases hg : alistGet l k with
  | none => exact absurd (alistGet_eq_none.mp hg) (by simpa using h)
  | some c => rfl

theorem alistGet_of_mem_nodup {l : AList} {k : List String} {c : String}
    (hnd : (l.map Prod.fst).Nodup) (h : (k, c) ∈ l) : alistGet l k = some c := by
  induction l with
  | nil => simp at h
  | cons e rest ih =>
    rw [List.map_cons, List.nodup_cons] at hnd
    rcases List.mem_cons.mp h with he | hrest
    · rw [← he]; exact alistGet_cons_self
    · have hk : k ≠ e.1 := by
        intro hke
        exact hnd.1 (List.mem_map.mpr ⟨(k, c), hrest, hke⟩)
      cases e with
      | mk k0 c0 =>
        rw [alistGet_cons_ne hk]
        exact ih hnd.2 hrest

/-! ## Pagination: `list_s3_files` -/

theorem listLoop_chain {r : ListResponse} {pages : List ListResponse} (acc : List String)
    (h : chainOK r pages = true) :
    listLoop r pages acc = .ok (acc ++ (pages.map ListResponse.contents).flatten) := by
  induction pages generalizing r acc with
  | nil =>
    rw [chainOK] at h
    simp only [Bool.not_eq_eq_eq_not, Bool.not_true] at h
    simp [listLoop, h]
  | cons next rest ih =>
    rw [chainOK] at h
    simp only [Bool.and_eq_true, Option.isSome_iff_exists] at h
    obtain ⟨⟨ht, tok, htok⟩, hrest⟩ := h
    rw [listLoop, if_pos ht, htok, ih _ hrest]
    simp

/-- C6: with a well-formed multi-page chain of responses (each page but
the last truncated with a token, the last not truncated) and a nonzero
initial key count, `list_s3_files` returns exactly the concatenation of
the keys of all pages; the result covers every page's keys, and it is
duplicate-free whenever the provider's pages are pairwise disjoint and
individually duplicate-free. -/
theorem C6_pagination_all_pages (bp e : Option String) (b : String) (first : ListResponse)
    (pages : List ListResponse) (hb : get_s3_bucket_name bp e = .ok b)
    (hchain : chainOK first pages = true) (_hpages : pages ≠ [])
    (hkc : first.keyCount ≠ 0) :
    list_s3_files bp e first pages =
      .ok ((first.contents :: pages.map ListResponse.contents).flatten) ∧
    (∀ k, k ∈ (first.contents :: pages.map ListResponse.contents).flatten ↔
      ∃ l ∈ first.contents :: pages.map ListResponse.contents, k ∈ l) ∧
    ((∀ l ∈ first.contents :: pages.map ListResponse.contents, l.Nodup) →
      List.Pairwise List.Disjoint (first.contents :: pages.map ListResponse.contents) →
      (first.contents :: pages.map ListResponse.contents).flatten.Nodup) := by
  refine ⟨?_, ?_, ?_⟩
  · rw [list_s3_files, hb]
    rw [if_neg (by simpa using hkc)]
    rw [listLoop_chain _ hchain]
    simp
  · intro k; exact List.mem_flatten
  · intro h1 h2; exact List.nodup_flatten.mpr ⟨h1, h2⟩

/-- Witness for C6 at a concrete two-page listing. -/
theorem C6_pagination_all_pages_witness :
    list_s3_files (some "b") none ⟨2, ["k1", "k2"], true, some "t"⟩
      [⟨1, ["k3"], false, none⟩] = .ok ["k1", "k2", "k3"] := by
  have := C6_pagination_all_pages (some "b") none "b" ⟨2, ["k1", "k2"], true, some "t"⟩
    [⟨1, ["k3"], false, none⟩] rfl rfl (by simp) (by simp)
  simpa using this.1

/-- C7: the pagination loop of `list_s3_files` (i) fails with a
`KeyError` whenever the current response claims truncation but carries no
continuation token, and (ii) terminates within `pages.length + 1`
iterations on every finite sequence of provider responses, as shown by
the fuelled variant agreeing at that fuel. -/
theorem C7_loop_terminates_or_protocol_error (r : ListResponse)
    (pages : List ListResponse) (acc : List String) :
    (r.isTruncated = true → r.nextContinuationToken = none →
      listLoop r pages acc = .error .keyError) ∧
    listLoopFuel (pages.length + 1) r pages acc = some (listLoop r pages acc) := by
  constructor
  · intro ht hn
    cases pages <;> rw [listLoop, if_pos ht, hn]
  · induction pages generalizing r acc with
    | nil =>
      rw [listLoop, listLoopFuel]
      by_cases ht : r.isTruncated
      · rw [if_pos ht, if_pos ht]
        cases r.nextContinuationToken <;> rfl
      · rw [if_neg ht, if_neg ht]
    | cons next rest ih =>
      rw [listLoop, listLoopFuel, List.length_cons]
      by_cases ht : r.isTruncated
      · rw [if_pos ht, if_pos ht]
        cases r.nextContinuationToken with
        | none => rfl
        | some tok => exact ih next (acc ++ next.contents)
      · rw [if_neg ht, if_neg ht]

/-- Witness for C7 at a concrete truncated, token-less response. -/
theorem C7_loop_terminates_or_protocol_error_witness :
    listLoop ⟨1, ["k"], true, none⟩ [] [] = .error .keyError ∧
    listLoopFuel 1 ⟨1, ["k"], true, none⟩ [] [] =
      some (listLoop ⟨1, ["k"], true, none⟩ [] []) :=
  ⟨(C7_loop_terminates_or_protocol_error ⟨1, ["k"], true, none⟩ [] []).1 rfl rfl,
   (C7_loop_terminates_or_protocol_error ⟨1, ["k"], true, none⟩ [] []).2⟩

/-- C9: when the initial response reports a key count of zero,
`list_s3_files` returns the empty list without raising (the code only
logs a warning). -/
theorem C9_empty_prefix_returns_nil (bp e : Option String) (b : String)
    (first : ListResponse) (pages : List ListResponse)
    (hb : get_s3_bucket_name bp e = .ok b) (h0 : first.keyCount = 0) :
    list_s3_files bp e first pages = .ok [] := by
  rw [list_s3_files, hb, if_pos (by simp [h0])]

/-- Witness for C9. -/
theorem C9_empty_prefix_returns_nil_witness :
    list_s3_files (some "b") none ⟨0, [], false, none⟩ [] = .ok [] :=
  C9_empty_prefix_returns_nil (some "b") none "b" ⟨0, [], false, none⟩ [] rfl rfl

/-! ## Bucket-name resolution -/

/-- C4 (amended): the explicit parameter wins whenever it is given, even
with the environment variable set; an absent parameter falls back to the
environment value; both absent is a configuration error raised before any
I/O.  Presence means being set at all: emptiness of the value is not
checked (see the counterexample). -/
theorem C4_bucket_resolution (e : Option String) (v w : String) :
    get_s3_bucket_name (some v) e = .ok v ∧
    get_s3_bucket_name none (some w) = .ok w ∧
    get_s3_bucket_name none none = .error .configurationError :=
  ⟨rfl, rfl, rfl⟩

/-- C4 counterexample to the claim as stated: resolution happily yields
an *empty* bucket name — with the parameter set to the empty string (and
no environment value), no non-empty value is resolvable, yet the
operation succeeds instead of failing. -/
theorem C4_counterexample :
    get_s3_bucket_name (some "") none = .ok "" ∧ ("" : String).length = 0 :=
  ⟨rfl, rfl⟩

/-! ## File-system and bucket update lemmas -/

theorem fsGet_fsPut_self {fs : LocalFS} {p : List String} {c : String} :
    fsGet (fsPut fs p c) p = some c := alistGet_cons_self

theorem fsGet_fsPut_ne {fs : LocalFS} {p q : List String} {c : String} (h : q ≠ p) :
    fsGet (fsPut fs p c) q = fsGet fs q := alistGet_cons_ne h

theorem fsGet_mkdirParents {fs : LocalFS} {p q : List String} :
    fsGet (mkdirParents fs p) q = fsGet fs q := rfl

theorem isFile_fsPut_of_isFile {fs : LocalFS} {p q : List String} {c : String}
    (h : isFile fs q = true) : isFile (fsPut fs p c) q = true := by
  by_cases hq : q = p
  · subst hq; rw [isFile, fsGet_fsPut_self]; rfl
  · rw [isFile, fsGet_fsPut_ne hq]; exact h

theorem wfSeg_concat {a : List String} {x : String} (h : wfPath (a ++ [x]) = true) :
    wfSeg x = true := by
  rw [wfPath, List.all_eq_true] at h
  exact h x (by simp)

theorem wfPath_of_append_left {l₁ l₂ : List String} (h : wfPath (l₁ ++ l₂) = true) :
    wfPath l₁ = true := by
  rw [wfPath_append, Bool.and_eq_true] at h
  exact h.1

theorem wfPath_of_append_right {l₁ l₂ : List String} (h : wfPath (l₁ ++ l₂) = true) :
    wfPath l₂ = true := by
  rw [wfPath_append, Bool.and_eq_true] at h
  exact h.2

/-! ## The upload loop of `copy_dir_to_s3_dir` -/

theorem filesOf_append (a b : List FSEntry) :
    filesOf (a ++ b) = filesOf a ++ filesOf b := by
  induction a with
  | nil => rfl
  | cons e rest ih => cases e <;> simp [filesOf, ih]

theorem filesOf_map_dir (ds : List (List String)) :
    filesOf (ds.map FSEntry.dir) = [] := by
  induction ds with
  | nil => rfl
  | cons d rest ih => simpa [filesOf] using ih

theorem filesOf_map_file (l : AList) :
    filesOf (l.map (fun e => FSEntry.file e.1 e.2)) = l := by
  induction l with
  | nil => rfl
  | cons e rest ih => cases e with | mk p c => simp [filesOf, ih]

theorem filesOf_globEntries (fs : LocalFS) (root : List String) :
    filesOf (globEntries fs root) =
      fs.files.filter (fun e => root.isPrefixOf e.1 && e.1 != root) := by
  rw [globEntries, filesOf_append, filesOf_map_dir, filesOf_map_file]
  rfl

/-- The upload loop is exactly: put every file entry, in order, so that
the resulting bucket is the (reversed, since each put prepends) image of
the file list in front of the original bucket. -/
theorem uploadLoop_eq (finalPfx rootDir : List String) (es : List FSEntry) (s3 : S3State) :
    uploadLoop finalPfx rootDir es s3 =
      (filesOf es).reverse.map
        (fun pc => (finalPfx ++ pc.1.drop rootDir.length, pc.2)) ++ s3 := by
  induction es generalizing s3 with
  | nil => rfl
  | cons e rest ih =>
    cases e with
    | dir p => rw [uploadLoop, filesOf]; exact ih s3
    | file p c =>
      rw [uploadLoop, filesOf, ih]
      simp [s3Put]

theorem pred_parts {root p : List String}
    (h : (root.isPrefixOf p && p != root) = true) : root <+: p ∧ p ≠ root := by
  rw [Bool.and_eq_true, List.isPrefixOf_iff_prefix, bne_iff_ne] at h
  exact h

theorem eq_append_drop_of_pfx {root p : List String} (h : root <+: p) :
    root ++ p.drop root.length = p := List.prefix_iff_eq_append.mp h

/-- `copy_dir_to_s3_dir` on an existing well-formed directory computes the
prefix `y/x` and the bucket `upImage fs (a ++ [x]) (y ++ [x]) ++ s3`. -/
theorem copy_dir_to_s3_dir_eq (fs : LocalFS) (s3 : S3State) (a y : List String)
    (x : String) (bp e : Option String) (b : String)
    (hwd : wfPath (a ++ [x]) = true) (hwy : wfPath y = true)
    (hdir : isDir fs (a ++ [x]) = true)
    (hb : get_s3_bucket_name bp e = .ok b) :
    copy_dir_to_s3_dir fs s3 (a ++ [x]) y bp e =
      .ok (y ++ [x], upImage fs (a ++ [x]) (y ++ [x]) ++ s3) := by
  simp only [copy_dir_to_s3_dir, pathNorm_eq_self hwd, pathNorm_eq_self hwy, hdir,
    Bool.not_true]
  rw [hb, pathName_concat (wfSeg_concat hwd)]
  simp only [Bool.false_eq_true, if_false, uploadLoop_eq, filesOf_globEntries, upImage]

theorem upImage_keys_nodup {fs : LocalFS} {d fin : List String}
    (hnd : (fs.files.map Prod.fst).Nodup) :
    ((upImage fs d fin).map Prod.fst).Nodup := by
  have h1 : ((fs.files.filter
      (fun pc => d.isPrefixOf pc.1 && pc.1 != d)).reverse.map Prod.fst).Nodup := by
    rw [List.map_reverse, List.nodup_reverse]
    exact ((List.filter_sublist fs.files).map Prod.fst).nodup hnd
  rw [upImage, List.map_map]
  refine List.Nodup.map_on ?_ (List.Nodup.of_map Prod.fst h1)
  intro p1 h1m p2 h2m hfe
  have hp1 := (pred_parts (List.mem_filter.mp (List.mem_reverse.mp h1m)).2).1
  have hp2 := (pred_parts (List.mem_filter.mp (List.mem_reverse.mp h2m)).2).1
  have hfe' : fin ++ p1.1.drop d.length = fin ++ p2.1.drop d.length := hfe
  have hdrop : p1.1.drop d.length = p2.1.drop d.length := List.append_cancel_left hfe'
  have hfst : p1.1 = p2.1 := by
    rw [← eq_append_drop_of_pfx hp1, ← eq_append_drop_of_pfx hp2, hdrop]
  exact List.inj_on_of_nodup_map h1 h1m h2m hfst

/-- Membership in the key set of the upload image. -/
theorem upImage_keys_mem {fs : LocalFS} {d fin k : List String} :
    k ∈ (upImage fs d fin).map Prod.fst ↔
      ∃ p c, (p, c) ∈ fs.files ∧ d <+: p ∧ p ≠ d ∧ k = fin ++ p.drop d.length := by
  rw [upImage, List.map_map]
  constructor
  · intro hmem
    obtain ⟨pc, hpc, hkey⟩ := List.mem_map.mp hmem
    have hparts := pred_parts (List.mem_filter.mp (List.mem_reverse.mp hpc)).2
    exact ⟨pc.1, pc.2, (List.mem_filter.mp (List.mem_reverse.mp hpc)).1,
      hparts.1, hparts.2, hkey.symm⟩
  · intro ⟨p, c, hmem, hpfx, hne, hkey⟩
    refine List.mem_map.mpr ⟨(p, c), List.mem_reverse.mpr (List.mem_filter.mpr
      ⟨hmem, ?_⟩), hkey.symm⟩
    simp only [Bool.and_eq_true, List.isPrefixOf_iff_prefix, bne_iff_ne]
    exact ⟨hpfx, hne⟩

theorem upImage_get_of_file {fs : LocalFS} {d fin r : List String} {c : String}
    (hnd : (fs.files.map Prod.fst).Nodup)
    (hget : fsGet fs (d ++ r) = some c) (hr : r ≠ []) :
    alistGet (upImage fs d fin) (fin ++ r) = some c := by
  have hmem : (d ++ r, c) ∈ fs.files := alistGet_mem hget
  have hpf : ((fun pc : List String × String =>
      d.isPrefixOf pc.1 && pc.1 != d) (d ++ r, c)) = true := by
    simp only [Bool.and_eq_true, List.isPrefixOf_iff_prefix, bne_iff_ne]
    exact ⟨List.prefix_append _ _, fun hcontra => hr (by
      have : d ++ r = d ++ [] := by rw [hcontra, List.append_nil]
      exact List.append_cancel_left this)⟩
  have hupmem : (fin ++ r, c) ∈ upImage fs d fin := by
    refine List.mem_map.mpr ⟨(d ++ r, c),
      List.mem_reverse.mpr (List.mem_filter.mpr ⟨hmem, hpf⟩), ?_⟩
    simp [List.drop_left]
  exact alistGet_of_mem_nodup (upImage_keys_nodup hnd) hupmem

theorem upImage_get_none {fs : LocalFS} {d fin k : List String}
    (hk : ∀ p c, (p, c) ∈ fs.files → d <+: p → p ≠ d → k ≠ fin ++ p.drop d.length) :
    alistGet (upImage fs d fin) k = none := by
  rw [alistGet_eq_none]
  intro hmem
  obtain ⟨p, c, hfsmem, hpfx, hne, hkey⟩ := upImage_keys_mem.mp hmem
  exact hk p c hfsmem hpfx hne hkey

/-- C1: uploading an existing local directory `a/x` to remote root `y`
returns the prefix `y/x`; every file under the directory lands at `y/x`
followed by its path relative to the directory; and every other key of
the bucket — in particular any key not the image of a *file* — is left
unchanged (directories are never uploaded). -/
theorem C1_copy_dir_to_s3_dir_spec (fs : LocalFS) (s3 : S3State) (a y : List String)
    (x : String) (bp e : Option String) (b : String)
    (hwd : wfPath (a ++ [x]) = true) (hwy : wfPath y = true)
    (hdir : isDir fs (a ++ [x]) = true)
    (hnd : (fs.files.map Prod.fst).Nodup)
    (hb : get_s3_bucket_name bp e = .ok b) :
    ∃ s3', copy_dir_to_s3_dir fs s3 (a ++ [x]) y bp e = .ok (y ++ [x], s3') ∧
      (∀ r c, fsGet fs ((a ++ [x]) ++ r) = some c → r ≠ [] →
        s3Get s3' ((y ++ [x]) ++ r) = some c) ∧
      (∀ k, (∀ p c, (p, c) ∈ fs.files → (a ++ [x]) <+: p → p ≠ a ++ [x] →
          k ≠ (y ++ [x]) ++ p.drop (a ++ [x]).length) →
        s3Get s3' k = s3Get s3 k) := by
  refine ⟨upImage fs (a ++ [x]) (y ++ [x]) ++ s3,
    copy_dir_to_s3_dir_eq fs s3 a y x bp e b hwd hwy hdir hb, ?_, ?_⟩
  · intro r c hget hr
    rw [s3Get, alistGet_append, upImage_get_of_file hnd hget hr, Option.or_some]
  · intro k hk
    rw [s3Get, alistGet_append, upImage_get_none hk, Option.none_or]
    rfl

/-- Witness for C1: a two-file directory `a/x` (with a subdirectory and
an unrelated outside file) uploaded to root `y`. -/
theorem C1_copy_dir_to_s3_dir_spec_witness :
    ∃ s3', copy_dir_to_s3_dir
        ⟨[["a", "x"], ["a", "x", "sub"]],
         [(["a", "x", "f"], "c1"), (["a", "x", "sub", "g"], "c2"), (["other"], "z")]⟩
        [] (["a"] ++ ["x"]) ["y"] (some "b") none = .ok (["y"] ++ ["x"], s3') ∧
      (∀ r c, fsGet ⟨[["a", "x"], ["a", "x", "sub"]],
         [(["a", "x", "f"], "c1"), (["a", "x", "sub", "g"], "c2"), (["other"], "z")]⟩
          ((["a"] ++ ["x"]) ++ r) = some c → r ≠ [] →
        s3Get s3' ((["y"] ++ ["x"]) ++ r) = some c) ∧
      (∀ k, (∀ p c, (p, c) ∈ [(["a", "x", "f"], "c1"), (["a", "x", "sub", "g"], "c2"),
            (["other"], "z")] → (["a"] ++ ["x"]) <+: p → p ≠ ["a"] ++ ["x"] →
          k ≠ (["y"] ++ ["x"]) ++ p.drop (["a"] ++ ["x"]).length) →
        s3Get s3' k = s3Get [] k) :=
  C1_copy_dir_to_s3_dir_spec
    ⟨[["a", "x"], ["a", "x", "sub"]],
     [(["a", "x", "f"], "c1"), (["a", "x", "sub", "g"], "c2"), (["other"], "z")]⟩
    [] ["a"] ["y"] "x" (some "b") none "b"
    (by decide) (by decide) (by decide) (by decide) rfl

/-- C5: when the local directory argument is not an existing directory,
both directory-sync operations fail with the `InvalidArgument`
`ValueError` — for every bucket argument pair, including one that could
not be resolved, so the check happens before bucket resolution and before
any network access; no state is returned. -/
theorem C5_local_dir_checked_first (fs : LocalFS) (s3 : S3State) (pfx d : List String)
    (bp e : Option String) (ow : Bool) (h : isDir fs (pathNorm d) = false) :
    copy_s3_dir_to_dir fs s3 pfx d bp e ow = .error .invalidArgument ∧
    copy_dir_to_s3_dir fs s3 d pfx bp e = .error .invalidArgument := by
  constructor
  · simp only [copy_s3_dir_to_dir, h, Bool.not_false, if_true]
  · simp only [copy_dir_to_s3_dir, h, Bool.not_false, if_true]

/-- Witness for C5: a missing directory, with both bucket sources absent. -/
theorem C5_local_dir_checked_first_witness :
    copy_s3_dir_to_dir ⟨[], []⟩ [] ["p"] ["q"] none none true = .error .invalidArgument ∧
    copy_dir_to_s3_dir ⟨[], []⟩ [] ["q"] ["p"] none none = .error .invalidArgument :=
  C5_local_dir_checked_first ⟨[], []⟩ [] ["p"] ["q"] none none true rfl

/-- C10: with `overwrite=False` and an already existing destination file,
`copy_s3_file_to_file` returns (with the file system unchanged) before
resolving a bucket name: even with both the parameter and the environment
variable absent, no configuration error is raised and no provider call is
made. -/
theorem C10_skip_precedes_bucket_resolution (fs : LocalFS) (s3 : S3State)
    (key lf : List String) (h : isFile fs lf = true) :
    copy_s3_file_to_file fs s3 key lf none none false = .ok fs := by
  simp only [copy_s3_file_to_file, h, Bool.not_false, Bool.and_self, if_true]

/-- Witness for C10. -/
theorem C10_skip_precedes_bucket_resolution_witness :
    copy_s3_file_to_file ⟨[], [(["f"], "old")]⟩ [(["k"], "new")] ["k"] ["f"]
      none none false = .ok ⟨[], [(["f"], "old")]⟩ :=
  C10_skip_precedes_bucket_resolution ⟨[], [(["f"], "old")]⟩ [(["k"], "new")]
    ["k"] ["f"] rfl

/-! ## The download loop of `copy_s3_dir_to_dir` -/

/-- The loop completes when every listed non-marker key extends the
prefix segment-wise and its object is present. -/
theorem downloadLoop_ok (s3 : S3State) (fin pfx : List String) (ow : Bool)
    (ks : List (List String)) (fs : LocalFS)
    (h : ∀ k ∈ ks, endsSlash k = false →
      (pfx.isPrefixOf (pathNorm k) = true ∧ (s3Get s3 k).isSome = true)) :
    ∃ fs', downloadLoop s3 fin pfx ow ks fs = .ok fs' := by
  induction ks generalizing fs with
  | nil => exact ⟨fs, rfl⟩
  | cons k ks ih =>
    rw [downloadLoop]
    by_cases hsl : endsSlash k = true
    · rw [if_pos hsl]
      exact ih fs (fun k' hk' => h k' (List.mem_cons_of_mem _ hk'))
    · have hk := h k (List.mem_cons_self _ _) (by simpa using hsl)
      rw [if_neg hsl, if_pos hk.1]
      by_cases hskip : (!ow && isFile fs (fin ++ (pathNorm k).drop pfx.length)) = true
      · rw [if_pos hskip]
        exact ih fs (fun k' hk' => h k' (List.mem_cons_of_mem _ hk'))
      · rw [if_neg hskip]
        cases hg : s3Get s3 k with
        | none => rw [hg] at hk; exact absurd hk.2 (by simp)
        | some c =>
          simp only [hg]
          exact ih _ (fun k' hk' => h k' (List.mem_cons_of_mem _ hk'))

/-- Frame rule: a path that is the target of no listed non-marker key is
left untouched by the loop (marker keys are skipped, other keys write
only their own targets). -/
theorem downloadLoop_frame (s3 : S3State) (fin pfx : List String) (ow : Bool)
    (ks : List (List String)) (fs fs' : LocalFS) (q : List String)
    (hrun : downloadLoop s3 fin pfx ow ks fs = .ok fs')
    (hq : ∀ k ∈ ks, endsSlash k = false → q ≠ fin ++ (pathNorm k).drop pfx.length) :
    fsGet fs' q = fsGet fs q := by
  induction ks generalizing fs with
  | nil =>
    rw [downloadLoop] at hrun
    cases hrun
    rfl
  | cons k ks ih =>
    rw [downloadLoop] at hrun
    by_cases hsl : endsSlash k = true
    · rw [if_pos hsl] at hrun
      exact ih fs hrun (fun k' hk' => hq k' (List.mem_cons_of_mem _ hk'))
    · rw [if_neg hsl] at hrun
      by_cases hpf : pfx.isPrefixOf (pathNorm k) = true
      · rw [if_pos hpf] at hrun
        by_cases hskip : (!ow && isFile fs (fin ++ (pathNorm k).drop pfx.length)) = true
        · rw [if_pos hskip] at hrun
          exact ih fs hrun (fun k' hk' => hq k' (List.mem_cons_of_mem _ hk'))
        · rw [if_neg hskip] at hrun
          cases hg : s3Get s3 k with
          | none => rw [hg] at hrun; exact absurd hrun (by simp)
          | some c =>
            rw [hg] at hrun
            have hqk : q ≠ fin ++ (pathNorm k).drop pfx.length :=
              hq k (List.mem_cons_self _ _) (by simpa using hsl)
            rw [ih _ hrun (fun k' hk' => hq k' (List.mem_cons_of_mem _ hk')),
              fsGet_fsPut_ne hqk, fsGet_mkdirParents]
      · rw [if_neg hpf] at hrun
        exact absurd hrun (by simp)

/-- With `overwrite` on, the target of a listed non-marker key holds the
remote object's body after the loop (provided the targets of distinct
keys do not collide). -/
theorem downloadLoop_read_overwrite (s3 : S3State) (fin pfx : List String)
    (ks : List (List String)) (fs fs' : LocalFS) (k0 : List String)
    (hrun : downloadLoop s3 fin pfx true ks fs = .ok fs')
    (hnd : ks.Nodup) (hk0 : k0 ∈ ks) (hsl0 : endsSlash k0 = false)
    (hinj : ∀ k ∈ ks, k ≠ k0 → endsSlash k = false →
      fin ++ (pathNorm k).drop pfx.length ≠ fin ++ (pathNorm k0).drop pfx.length) :
    fsGet fs' (fin ++ (pathNorm k0).drop pfx.length) = s3Get s3 k0 := by
  induction ks generalizing fs with
  | nil => exact absurd hk0 (by simp)
  | cons k ks ih =>
    rw [downloadLoop] at hrun
    rw [List.nodup_cons] at hnd
    by_cases hke : k = k0
    · subst hke
      rw [if_neg (by simp [hsl0]), ] at hrun
      by_cases hpf : pfx.isPrefixOf (pathNorm k) = true
      · rw [if_pos hpf, if_neg (by simp)] at hrun
        cases hg : s3Get s3 k with
        | none => rw [hg] at hrun; exact absurd hrun (by simp)
        | some c =>
          rw [hg] at hrun
          have hframe := downloadLoop_frame s3 fin pfx true ks _ fs'
            (fin ++ (pathNorm k).drop pfx.length) hrun ?_
          · rw [hframe, fsGet_fsPut_self]
          · intro k' hk' hsl'
            exact (hinj k' (List.mem_cons_of_mem _ hk')
              (fun he => hnd.1 (he ▸ hk')) hsl').symm
      · rw [if_neg hpf] at hrun
        exact absurd hrun (by simp)
    · have hk0' : k0 ∈ ks := by
        rcases List.mem_cons.mp hk0 with he | hm
        · exact absurd he.symm hke
        · exact hm
      have hrec : ∀ fs1, downloadLoop s3 fin pfx true ks fs1 = .ok fs' →
          fsGet fs' (fin ++ (pathNorm k0).drop pfx.length) = s3Get s3 k0 := by
        intro fs1 hrun1
        exact ih fs1 hrun1 hnd.2 hk0'
          (fun k' hk' hne' hsl' => hinj k' (List.mem_cons_of_mem _ hk') hne' hsl')
      by_cases hsl : endsSlash k = true
      · rw [if_pos hsl] at hrun
        exact hrec fs hrun
      · rw [if_neg hsl] at hrun
        by_cases hpf : pfx.isPrefixOf (pathNorm k) = true
        · rw [if_pos hpf, if_neg (by simp)] at hrun
          cases hg : s3Get s3 k with
          | none => rw [hg] at hrun; exact absurd hrun (by simp)
          | some c =>
            rw [hg] at hrun
            exact hrec _ hrun
        · rw [if_neg hpf] at hrun
          exact absurd hrun (by simp)

/-- With `overwrite` off, a path that already holds a file before the
loop still holds the same content afterwards: every key targeting it is
skipped, every other key writes elsewhere. -/
theorem downloadLoop_keep_existing (s3 : S3State) (fin pfx : List String)
    (ks : List (List String)) (fs fs' : LocalFS) (q : List String)
    (hrun : downloadLoop s3 fin pfx false ks fs = .ok fs')
    (hq : isFile fs q = true) :
    fsGet fs' q = fsGet fs q := by
  induction ks generalizing fs with
  | nil =>
    rw [downloadLoop] at hrun
    cases hrun
    rfl
  | cons k ks ih =>
    rw [downloadLoop] at hrun
    by_cases hsl : endsSlash k = true
    · rw [if_pos hsl] at hrun
      exact ih fs hrun hq
    · rw [if_neg hsl] at hrun
      by_cases hpf : pfx.isPrefixOf (pathNorm k) = true
      · rw [if_pos hpf] at hrun
        by_cases hex : isFile fs (fin ++ (pathNorm k).drop pfx.length) = true
        · rw [if_pos (by simp [hex])] at hrun
          exact ih fs hrun hq
        · rw [if_neg (by simpa using hex)] at hrun
          cases hg : s3Get s3 k with
          | none => rw [hg] at hrun; exact absurd hrun (by simp)
          | some c =>
            rw [hg] at hrun
            have hne : q ≠ fin ++ (pathNorm k).drop pfx.length := by
              intro he
              rw [← he] at hex
              exact hex hq
            have hq1 : isFile (fsPut (mkdirParents fs
                (fin ++ (pathNorm k).drop pfx.length))
                (fin ++ (pathNorm k).drop pfx.length) c) q = true := by
              rw [isFile, fsGet_fsPut_ne hne, fsGet_mkdirParents]
              exact hq
            rw [ih _ hrun hq1, fsGet_fsPut_ne hne, fsGet_mkdirParents]
      · rw [if_neg hpf] at hrun
        exact absurd hrun (by simp)

/-- Master characterisation of `copy_s3_dir_to_dir` on an existing
well-formed local root, when every matched non-marker key extends the
prefix at a segment boundary: the call returns `local/x` and the final
file system agrees with a per-target description. -/
theorem copy_s3_dir_to_dir_spec (fs : LocalFS) (s3 : S3State) (a w : List String)
    (x : String) (bp e : Option String) (b : String) (ow : Bool)
    (hwp : wfPath (a ++ [x]) = true) (hww : wfPath w = true)
    (hdir : isDir fs w = true)
    (hmnd : (matchedKeys s3 (a ++ [x])).Nodup)
    (hseg : ∀ k ∈ s3.map Prod.fst, strPrefix (a ++ [x]) k = true → endsSlash k = false →
      (wfPath k = true ∧ (a ++ [x]) <+: k))
    (hb : get_s3_bucket_name bp e = .ok b) :
    ∃ fs', copy_s3_dir_to_dir fs s3 (a ++ [x]) w bp e ow = .ok (w ++ [x], fs') ∧
      (∀ q, (∀ k ∈ matchedKeys s3 (a ++ [x]), endsSlash k = false →
          q ≠ (w ++ [x]) ++ k.drop (a ++ [x]).length) → fsGet fs' q = fsGet fs q) ∧
      (∀ k, k ∈ matchedKeys s3 (a ++ [x]) → endsSlash k = false →
        (ow = true → fsGet fs' ((w ++ [x]) ++ k.drop (a ++ [x]).length) = s3Get s3 k) ∧
        (ow = false → isFile fs ((w ++ [x]) ++ k.drop (a ++ [x]).length) = true →
          fsGet fs' ((w ++ [x]) ++ k.drop (a ++ [x]).length) =
            fsGet fs ((w ++ [x]) ++ k.drop (a ++ [x]).length))) := by
  have hmk : ∀ k ∈ matchedKeys s3 (a ++ [x]), endsSlash k = false →
      (wfPath k = true ∧ (a ++ [x]) <+: k ∧ (s3Get s3 k).isSome = true) := by
    intro k hk hsl
    have hk' := List.mem_filter.mp hk
    have hs := hseg k hk'.1 hk'.2 hsl
    exact ⟨hs.1, hs.2, alistGet_isSome_of_mem hk'.1⟩
  have hnormk : ∀ k ∈ matchedKeys s3 (a ++ [x]), endsSlash k = false →
      pathNorm k = k := fun k hk hsl => pathNorm_eq_self (hmk k hk hsl).1
  have hrun0 : ∀ k ∈ matchedKeys s3 (a ++ [x]), endsSlash k = false →
      ((a ++ [x]).isPrefixOf (pathNorm k) = true ∧ (s3Get s3 k).isSome = true) := by
    intro k hk hsl
    refine ⟨?_, (hmk k hk hsl).2.2⟩
    rw [hnormk k hk hsl]
    exact List.isPrefixOf_iff_prefix.mpr (hmk k hk hsl).2.1
  obtain ⟨fs', hloop⟩ := downloadLoop_ok s3 (w ++ [x]) (a ++ [x]) ow
    (matchedKeys s3 (a ++ [x])) fs hrun0
  refine ⟨fs', ?_, ?_, ?_⟩
  · simp only [copy_s3_dir_to_dir, pathNorm_eq_self hww, pathNorm_eq_self hwp, hdir,
      Bool.not_true]
    rw [hb, pathName_concat (wfSeg_concat hwp)]
    simp only [Bool.false_eq_true, if_false]
    rw [hloop]
  · intro q hq
    refine downloadLoop_frame s3 (w ++ [x]) (a ++ [x]) ow _ fs fs' q hloop ?_
    intro k hk hsl
    rw [hnormk k hk hsl]
    exact hq k hk hsl
  · intro k hk hsl
    constructor
    · intro how
      subst how
      have hres := downloadLoop_read_overwrite s3 (w ++ [x]) (a ++ [x]) _ fs fs' k
        hloop hmnd hk hsl ?_
      · rw [hnormk k hk hsl] at hres
        exact hres
      · intro k' hk' hne hsl'
        rw [hnormk k' hk' hsl', hnormk k hk hsl]
        intro hcontra
        have hdrop := List.append_cancel_left hcontra
        have hkeq : k' = k := by
          rw [← eq_append_drop_of_pfx (hmk k' hk' hsl').2.1,
            ← eq_append_drop_of_pfx (hmk k hk hsl).2.1, hdrop]
        exact hne hkeq
    · intro how hex
      subst how
      exact downloadLoop_keep_existing s3 (w ++ [x]) (a ++ [x]) _ fs fs' _ hloop hex

/-- C2 counterexample to the claim as stated: the bucket holds the single
object `a/xy/f`, whose key the `Prefix="a/x"` filter matches as a *string*
prefix; `Path("a/xy/f").relative_to("a/x")` then raises `ValueError`, so
`copy_s3_dir_to_dir` raises instead of returning `y/x` — the claim's
"returns y/x regardless of how many objects matched" is false. -/
theorem C2_counterexample :
    copy_s3_dir_to_dir ⟨[["y"]], []⟩ [(["a", "xy", "f"], "c")] ["a", "x"] ["y"]
      (some "b") none true = .error .valueError := rfl

/-- C2 (amended): *provided every matched non-marker key extends the
prefix at a path-segment boundary*, `copy_s3_dir_to_dir` of prefix `a/x`
into existing directory `y` returns the local path `y/x` however many
objects matched (including zero); every listed key not ending in `/` is
downloaded to `y/x` joined with its path relative to the prefix, and
marker keys ending in `/` are skipped (no other local path changes). -/
theorem C2_copy_s3_dir_to_dir_spec (fs : LocalFS) (s3 : S3State) (a w : List String)
    (x : String) (bp e : Option String) (b : String)
    (hwp : wfPath (a ++ [x]) = true) (hww : wfPath w = true)
    (hdir : isDir fs w = true)
    (hmnd : (matchedKeys s3 (a ++ [x])).Nodup)
    (hseg : ∀ k ∈ s3.map Prod.fst, strPrefix (a ++ [x]) k = true → endsSlash k = false →
      (wfPath k = true ∧ (a ++ [x]) <+: k))
    (hb : get_s3_bucket_name bp e = .ok b) :
    ∃ fs', copy_s3_dir_to_dir fs s3 (a ++ [x]) w bp e true = .ok (w ++ [x], fs') ∧
      (∀ k ∈ matchedKeys s3 (a ++ [x]), endsSlash k = false →
        fsGet fs' ((w ++ [x]) ++ k.drop (a ++ [x]).length) = s3Get s3 k) ∧
      (∀ q, (∀ k ∈ matchedKeys s3 (a ++ [x]), endsSlash k = false →
          q ≠ (w ++ [x]) ++ k.drop (a ++ [x]).length) → fsGet fs' q = fsGet fs q) := by
  obtain ⟨fs', h1, h2, h3⟩ :=
    copy_s3_dir_to_dir_spec fs s3 a w x bp e b true hwp hww hdir hmnd hseg hb
  exact ⟨fs', h1, fun k hk hsl => (h3 k hk hsl).1 rfl, h2⟩

/-- Witness for C2 (amended) at a bucket holding one real object under
the prefix plus one pseudo-directory marker. -/
theorem C2_copy_s3_dir_to_dir_spec_witness :
    ∃ fs', copy_s3_dir_to_dir ⟨[["y"]], []⟩
        [(["a", "x", "f"], "c"), (["a", "x", "d", ""], "")]
        (["a"] ++ ["x"]) ["y"] (some "b") none true = .ok (["y"] ++ ["x"], fs') ∧
      (∀ k ∈ matchedKeys [(["a", "x", "f"], "c"), (["a", "x", "d", ""], "")]
          (["a"] ++ ["x"]), endsSlash k = false →
        fsGet fs' ((["y"] ++ ["x"]) ++ k.drop (["a"] ++ ["x"]).length) =
          s3Get [(["a", "x", "f"], "c"), (["a", "x", "d", ""], "")] k) ∧
      (∀ q, (∀ k ∈ matchedKeys [(["a", "x", "f"], "c"), (["a", "x", "d", ""], "")]
            (["a"] ++ ["x"]), endsSlash k = false →
          q ≠ (["y"] ++ ["x"]) ++ k.drop (["a"] ++ ["x"]).length) →
        fsGet fs' q = fsGet ⟨[["y"]], []⟩ q) :=
  C2_copy_s3_dir_to_dir_spec ⟨[["y"]], []⟩
    [(["a", "x", "f"], "c"), (["a", "x", "d", ""], "")] ["a"] ["y"] "x"
    (some "b") none "b" (by decide) (by decide) (by decide) (by decide)
    (by decide) rfl

/-- C8: overwrite semantics of downloads.  Single file: with
`overwrite=False` onto an existing destination the call returns the file
system unchanged; with `overwrite=True` the destination holds the remote
body afterwards.  Directory download: for each matched non-marker key,
with `overwrite=False` an existing destination file keeps its content,
and with `overwrite=True` the destination holds the remote body. -/
theorem C8_overwrite_semantics (fs : LocalFS) (s3 : S3State) (key lf a w : List String)
    (x : String) (bp e : Option String) (b c : String)
    (hb : get_s3_bucket_name bp e = .ok b) :
    (isFile fs lf = true → copy_s3_file_to_file fs s3 key lf bp e false = .ok fs) ∧
    (s3Get s3 key = some c →
      copy_s3_file_to_file fs s3 key lf bp e true = .ok (fsPut fs lf c) ∧
      fsGet (fsPut fs lf c) lf = some c) ∧
    (wfPath (a ++ [x]) = true → wfPath w = true → isDir fs w = true →
      (matchedKeys s3 (a ++ [x])).Nodup →
      (∀ k ∈ s3.map Prod.fst, strPrefix (a ++ [x]) k = true → endsSlash k = false →
        (wfPath k = true ∧ (a ++ [x]) <+: k)) →
      ∀ k ∈ matchedKeys s3 (a ++ [x]), endsSlash k = false →
        (∃ fs', copy_s3_dir_to_dir fs s3 (a ++ [x]) w bp e false = .ok (w ++ [x], fs') ∧
          (isFile fs ((w ++ [x]) ++ k.drop (a ++ [x]).length) = true →
            fsGet fs' ((w ++ [x]) ++ k.drop (a ++ [x]).length) =
              fsGet fs ((w ++ [x]) ++ k.drop (a ++ [x]).length))) ∧
        (∃ fs', copy_s3_dir_to_dir fs s3 (a ++ [x]) w bp e true = .ok (w ++ [x], fs') ∧
          fsGet fs' ((w ++ [x]) ++ k.drop (a ++ [x]).length) = s3Get s3 k)) := by
  refine ⟨?_, ?_, ?_⟩
  · intro h
    simp only [copy_s3_file_to_file, h, Bool.not_false, Bool.and_self, if_true]
  · intro hc
    constructor
    · simp only [copy_s3_file_to_file, Bool.not_true, Bool.false_and,
        Bool.false_eq_true, if_false]
      rw [hb, hc]
    · exact fsGet_fsPut_self
  · intro hwp hww hdir hmnd hseg k hk hsl
    constructor
    · obtain ⟨fs', h1, _h2, h3⟩ :=
        copy_s3_dir_to_dir_spec fs s3 a w x bp e b false hwp hww hdir hmnd hseg hb
      exact ⟨fs', h1, fun hex => (h3 k hk hsl).2 rfl hex⟩
    · obtain ⟨fs', h1, _h2, h3⟩ :=
        copy_s3_dir_to_dir_spec fs s3 a w x bp e b true hwp hww hdir hmnd hseg hb
      exact ⟨fs', h1, (h3 k hk hsl).1 rfl⟩

/-- Witness for C8: destination file `f` with old content, one matched
remote object `a/x/f1`, and a pre-existing local file at the directory
download target `y/x/f1`. -/
theorem C8_overwrite_semantics_witness :
    copy_s3_file_to_file ⟨[["y"]], [(["f"], "old"), (["y", "x", "f1"], "loc")]⟩
      [(["k"], "new"), (["a", "x", "f1"], "r1")] ["k"] ["f"] (some "b") none false =
      .ok ⟨[["y"]], [(["f"], "old"), (["y", "x", "f1"], "loc")]⟩ ∧
    copy_s3_file_to_file ⟨[["y"]], [(["f"], "old"), (["y", "x", "f1"], "loc")]⟩
      [(["k"], "new"), (["a", "x", "f1"], "r1")] ["k"] ["f"] (some "b") none true =
      .ok (fsPut ⟨[["y"]], [(["f"], "old"), (["y", "x", "f1"], "loc")]⟩ ["f"] "new") ∧
    (∃ fs', copy_s3_dir_to_dir ⟨[["y"]], [(["f"], "old"), (["y", "x", "f1"], "loc")]⟩
        [(["k"], "new"), (["a", "x", "f1"], "r1")] (["a"] ++ ["x"]) ["y"]
        (some "b") none false = .ok (["y"] ++ ["x"], fs') ∧
      (isFile ⟨[["y"]], [(["f"], "old"), (["y", "x", "f1"], "loc")]⟩
          ((["y"] ++ ["x"]) ++ ["a", "x", "f1"].drop (["a"] ++ ["x"]).length) = true →
        fsGet fs' ((["y"] ++ ["x"]) ++ ["a", "x", "f1"].drop (["a"] ++ ["x"]).length) =
          fsGet ⟨[["y"]], [(["f"], "old"), (["y", "x", "f1"], "loc")]⟩
            ((["y"] ++ ["x"]) ++ ["a", "x", "f1"].drop (["a"] ++ ["x"]).length))) ∧
    (∃ fs', copy_s3_dir_to_dir ⟨[["y"]], [(["f"], "old"), (["y", "x", "f1"], "loc")]⟩
        [(["k"], "new"), (["a", "x", "f1"], "r1")] (["a"] ++ ["x"]) ["y"]
        (some "b") none true = .ok (["y"] ++ ["x"], fs') ∧
      fsGet fs' ((["y"] ++ ["x"]) ++ ["a", "x", "f1"].drop (["a"] ++ ["x"]).length) =
        s3Get [(["k"], "new"), (["a", "x", "f1"], "r1")] ["a", "x", "f1"]) := by
  have h := C8_overwrite_semantics
    ⟨[["y"]], [(["f"], "old"), (["y", "x", "f1"], "loc")]⟩
    [(["k"], "new"), (["a", "x", "f1"], "r1")] ["k"] ["f"] ["a"] ["y"] "x"
    (some "b") none "b" "new" rfl
  have h3 := h.2.2 (by decide) (by decide) (by decide) (by decide) (by decide)
    ["a", "x", "f1"] (by decide) (by decide)
  exact ⟨h.1 (by decide), (h.2.1 (by decide)).1, h3.1, h3.2⟩

/-- C3: round trip.  Uploading an existing directory `a/x` (well-formed
root that is not itself a file, well-formed duplicate-free file paths) to
remote root `y`, over a bucket holding no key under the resulting prefix
`y/x`, and then downloading that prefix into a fresh local root `z`
(an empty directory), returns `z/x` and reproduces exactly the source's
files: for every relative path `r`, the content at `z/x/r` afterwards
equals the content at `a/x/r` in the source — same relative paths, same
bytes. -/
theorem C3_roundtrip (fs1 : LocalFS) (s30 : S3State) (a y z : List String) (x : String)
    (bp e : Option String) (b : String)
    (hwd : wfPath (a ++ [x]) = true) (hwy : wfPath y = true) (hwz : wfPath z = true)
    (hwf : ∀ pc ∈ fs1.files, wfPath pc.1 = true)
    (hdir : isDir fs1 (a ++ [x]) = true)
    (hroot : fsGet fs1 (a ++ [x]) = none)
    (hnd : (fs1.files.map Prod.fst).Nodup)
    (hs3 : ∀ k ∈ s30.map Prod.fst, strPrefix (y ++ [x]) k = false)
    (hb : get_s3_bucket_name bp e = .ok b) :
    ∃ s31 fs', copy_dir_to_s3_dir fs1 s30 (a ++ [x]) y bp e = .ok (y ++ [x], s31) ∧
      copy_s3_dir_to_dir (LocalFS.mk [z] []) s31 (y ++ [x]) z bp e true =
        .ok (z ++ [x], fs') ∧
      (∀ r, fsGet fs' ((z ++ [x]) ++ r) = fsGet fs1 ((a ++ [x]) ++ r)) := by
  have hwfin : wfPath (y ++ [x]) = true := by
    rw [wfPath_append, hwy, Bool.true_and]
    simp [wfPath, wfSeg_concat hwd]
  have hfinne : (y ++ [x]) ≠ [] := by simp
  have hupshape : ∀ k ∈ (upImage fs1 (a ++ [x]) (y ++ [x])).map Prod.fst,
      ∃ rp c, rp ≠ [] ∧ k = (y ++ [x]) ++ rp ∧ ((a ++ [x]) ++ rp, c) ∈ fs1.files := by
    intro k hk
    obtain ⟨p, c, hmem, hpfx, hne, hkey⟩ := upImage_keys_mem.mp hk
    refine ⟨p.drop (a ++ [x]).length, c, ?_, hkey, ?_⟩
    · intro h0
      apply hne
      rw [← eq_append_drop_of_pfx hpfx, h0, List.append_nil]
    · rw [eq_append_drop_of_pfx hpfx]
      exact hmem
  have hmatched : matchedKeys (upImage fs1 (a ++ [x]) (y ++ [x]) ++ s30) (y ++ [x]) =
      (upImage fs1 (a ++ [x]) (y ++ [x])).map Prod.fst := by
    rw [matchedKeys, List.map_append, List.filter_append]
    have h1 : (s30.map Prod.fst).filter (fun k => strPrefix (y ++ [x]) k) = [] :=
      List.filter_eq_nil_iff.mpr (fun k hk => by simp [hs3 k hk])
    have h2 : ((upImage fs1 (a ++ [x]) (y ++ [x])).map Prod.fst).filter
        (fun k => strPrefix (y ++ [x]) k) =
        (upImage fs1 (a ++ [x]) (y ++ [x])).map Prod.fst := by
      rw [List.filter_eq_self]
      intro k hk
      obtain ⟨rp, c, hrp, hkey, _⟩ := hupshape k hk
      rw [hkey]
      exact strPrefix_append_self hfinne hrp
    rw [h1, h2, List.append_nil]
  have hseg2 : ∀ k ∈ (upImage fs1 (a ++ [x]) (y ++ [x]) ++ s30).map Prod.fst,
      strPrefix (y ++ [x]) k = true → endsSlash k = false →
      (wfPath k = true ∧ (y ++ [x]) <+: k) := by
    intro k hk hpfx _
    rw [List.map_append, List.mem_append] at hk
    rcases hk with hup | hs0
    · obtain ⟨rp, c, hrp, hkey, hfmem⟩ := hupshape k hup
      subst hkey
      refine ⟨?_, List.prefix_append _ _⟩
      rw [wfPath_append, hwfin, Bool.true_and]
      exact wfPath_of_append_right (hwf _ hfmem)
    · rw [hs3 k hs0] at hpfx
      exact absurd hpfx (by simp)
  have hmnd2 : (matchedKeys (upImage fs1 (a ++ [x]) (y ++ [x]) ++ s30)
      (y ++ [x])).Nodup := by
    rw [hmatched]
    exact upImage_keys_nodup hnd
  have hdirz : isDir (LocalFS.mk [z] []) z = true := by simp [isDir]
  obtain ⟨fs', hok, hframe, hper⟩ := copy_s3_dir_to_dir_spec (LocalFS.mk [z] [])
    (upImage fs1 (a ++ [x]) (y ++ [x]) ++ s30) y z x bp e b true
    hwfin hwz hdirz hmnd2 hseg2 hb
  refine ⟨upImage fs1 (a ++ [x]) (y ++ [x]) ++ s30, fs',
    copy_dir_to_s3_dir_eq fs1 s30 a y x bp e b hwd hwy hdir hb, hok, ?_⟩
  intro r
  cases hget : fsGet fs1 ((a ++ [x]) ++ r) with
  | some c =>
    have hr : r ≠ [] := by
      intro h0
      rw [h0, List.append_nil, hroot] at hget
      exact absurd hget (by simp)
    have hkmem : ((y ++ [x]) ++ r) ∈ matchedKeys
        (upImage fs1 (a ++ [x]) (y ++ [x]) ++ s30) (y ++ [x]) := by
      rw [hmatched]
      refine upImage_keys_mem.mpr ⟨(a ++ [x]) ++ r, c, alistGet_mem hget,
        List.prefix_append _ _, ?_, ?_⟩
      · intro hcontra
        apply hr
        have h0 : (a ++ [x]) ++ r = (a ++ [x]) ++ [] := by
          rw [hcontra, List.append_nil]
        exact List.append_cancel_left h0
      · rw [List.drop_left]
    have hwfr : wfPath ((y ++ [x]) ++ r) = true := by
      rw [wfPath_append, hwfin, Bool.true_and]
      exact wfPath_of_append_right (hwf _ (alistGet_mem hget))
    have hsl : endsSlash ((y ++ [x]) ++ r) = false := endsSlash_eq_false hwfr (by simp)
    have hres := (hper ((y ++ [x]) ++ r) hkmem hsl).1 rfl
    rw [List.drop_left] at hres
    rw [hres, s3Get, alistGet_append, upImage_get_of_file hnd hget hr, Option.or_some]
  | none =>
    have hq : ∀ k ∈ matchedKeys (upImage fs1 (a ++ [x]) (y ++ [x]) ++ s30) (y ++ [x]),
        endsSlash k = false → (z ++ [x]) ++ r ≠ (z ++ [x]) ++ k.drop (y ++ [x]).length := by
      intro k hk _ hcontra
      rw [hmatched] at hk
      obtain ⟨rp, c, hrp, hkey, hfmem⟩ := hupshape k hk
      subst hkey
      rw [List.drop_left] at hcontra
      have hre : r = rp := List.append_cancel_left hcontra
      subst hre
      have hsome := alistGet_of_mem_nodup hnd hfmem
      rw [fsGet] at hget
      rw [hget] at hsome
      exact absurd hsome (by simp)
    rw [hframe _ hq]
    rfl

/-- Witness for C3: a two-file directory `a/x` uploaded to `y` over a
bucket holding an unrelated key, downloaded back into fresh root `z`. -/
theorem C3_roundtrip_witness :
    ∃ s31 fs', copy_dir_to_s3_dir
        ⟨[["a", "x"], ["a", "x", "sub"]],
         [(["a", "x", "f"], "c1"), (["a", "x", "sub", "g"], "c2")]⟩
        [(["other"], "z0")] (["a"] ++ ["x"]) ["y"] (some "b") none =
        .ok (["y"] ++ ["x"], s31) ∧
      copy_s3_dir_to_dir (LocalFS.mk [["z"]] []) s31 (["y"] ++ ["x"]) ["z"]
        (some "b") none true = .ok (["z"] ++ ["x"], fs') ∧
      (∀ r, fsGet fs' ((["z"] ++ ["x"]) ++ r) =
        fsGet ⟨[["a", "x"], ["a", "x", "sub"]],
          [(["a", "x", "f"], "c1"), (["a", "x", "sub", "g"], "c2")]⟩
          ((["a"] ++ ["x"]) ++ r)) :=
  C3_roundtrip
    ⟨[["a", "x"], ["a", "x", "sub"]],
     [(["a", "x", "f"], "c1"), (["a", "x", "sub", "g"], "c2")]⟩
    [(["other"], "z0")] ["a"] ["y"] ["z"] "x" (some "b") none "b"
    (by decide) (by decide) (by decide) (by decide) (by decide) (by decide)
    (by decide) (by decide) rfl

end MlCloudTools
